import Mathlib

/- Verification development for the cross-reference resolution core
(clang-tools-extra/clangd/XRefs.cpp). Each function under analysis is given a
shallow embedding as an executable Lean definition, translated from the C++
source; theorems then settle the specified properties. -/

namespace RefsModel

/- Model of ReferenceFinder::Reference (XRefs.cpp).  `loc` stands for
`SpelledTok.location()` (a SourceLocation, totally ordered within one file),
`role` for the `index::SymbolRoleSet` bitset, and `container` for the
enclosing-declaration pointer, which is carried along but is not part of the
sort or dedup key. -/
structure Reference where
  loc : Nat
  role : Nat
  container : Nat
deriving DecidableEq, Repr

/- The comparator of ReferenceFinder::take,
`std::tie(LTok, L.Role) < std::tie(RTok, R.Role)`, as a non-strict
lexicographic order (the reflexive closure of the strict C++ comparator;
`llvm::sort` produces a sequence sorted in this sense). -/
def refLe (L R : Reference) : Prop :=
  L.loc < R.loc ∨ (L.loc = R.loc ∧ L.role ≤ R.role)

instance : DecidableRel refLe := fun L R => by
  unfold refLe
  exact inferInstance

instance : IsTotal Reference refLe := by
  constructor
  intro a b
  unfold refLe
  omega

instance : IsTrans Reference refLe := by
  constructor
  intro a b c hab hbc
  unfold refLe at *
  omega

/- The equality used by `llvm::unique` in ReferenceFinder::take:
`std::tie(LTok, L.Role) == std::tie(RTok, R.Role)`. -/
def sameKey (L R : Reference) : Prop :=
  L.loc = R.loc ∧ L.role = R.role

instance : DecidableRel sameKey := fun L R => by
  unfold sameKey
  exact inferInstance

/- Strict version of the sort key order: `refLe` but with distinct keys. -/
def refLt (L R : Reference) : Prop :=
  refLe L R ∧ ¬ sameKey L R

instance : IsTrans Reference refLt := by
  constructor
  intro a b c hab hbc
  unfold refLt refLe sameKey at *
  omega

theorem refLt_of_refLt_of_refLe {a b c : Reference} (h1 : refLt a b)
    (h2 : refLe b c) : refLt a c := by
  unfold refLt refLe sameKey at *
  omega

/- `std::unique` keeps the first element of every run of key-equal adjacent
elements; `dedupAdjFrom a l` processes the list `a :: l` with `a` as the
current kept element. -/
def dedupAdjFrom (a : Reference) : List Reference → List Reference
  | [] => [a]
  | b :: rest => if sameKey a b then dedupAdjFrom a rest else a :: dedupAdjFrom b rest

def uniqueAdj : List Reference → List Reference
  | [] => []
  | a :: rest => dedupAdjFrom a rest

/- ReferenceFinder::take (XRefs.cpp): sort the collected references by
(location, role) and erase adjacent duplicates with the same (location, role)
key.  `llvm::sort` (unstable, strict lexicographic comparator) is modelled by
insertion sort under the reflexive closure of that comparator: any correct
sort yields a permutation of the input that is `refLe`-sorted, which is all
the claim concerns. -/
def take (references : List Reference) : List Reference :=
  uniqueAdj (List.insertionSort refLe references)

theorem dedupAdjFrom_sublist (a : Reference) (l : List Reference) :
    List.Sublist (dedupAdjFrom a l) (a :: l) := by
  induction l generalizing a with
  | nil => simp [dedupAdjFrom]
  | cons b rest ih =>
    unfold dedupAdjFrom
    split
    · exact (ih a).trans ((List.sublist_cons_self b rest).cons_cons a)
    · exact (ih b).cons_cons a

theorem head?_dedupAdjFrom (a : Reference) (l : List Reference) :
    (dedupAdjFrom a l).head? = some a := by
  induction l generalizing a with
  | nil => simp [dedupAdjFrom]
  | cons b rest ih =>
    unfold dedupAdjFrom
    split
    · exact ih a
    · simp

theorem chain'_dedupAdjFrom (a : Reference) (l : List Reference)
    (h : List.Sorted refLe (a :: l)) :
    List.Chain' refLt (dedupAdjFrom a l) := by
  induction l generalizing a with
  | nil => simp [dedupAdjFrom]
  | cons b rest ih =>
    unfold dedupAdjFrom
    split
    · exact ih a (h.sublist ((List.sublist_cons_self b rest).cons_cons a))
    · rename_i hne
      have hbrest : List.Sorted refLe (b :: rest) := h.of_cons
      have hchain := ih b hbrest
      rw [List.chain'_cons']
      refine ⟨?_, hchain⟩
      intro y hy
      rw [head?_dedupAdjFrom] at hy
      cases hy
      exact ⟨List.rel_of_pairwise_cons h (by simp), hne⟩

/-- Claim C2: the reference list produced by ReferenceFinder::take is
non-decreasing under the lexicographic (token location, role bitset) order,
and no two entries in it share both an identical location and an identical
role bitset. -/
theorem take_sorted_and_deduped (references : List Reference) :
    List.Sorted refLe (take references) ∧
    List.Pairwise (fun L R => ¬ (L.loc = R.loc ∧ L.role = R.role))
      (take references) := by
  have hs : List.Sorted refLe (List.insertionSort refLe references) :=
    List.sorted_insertionSort refLe references
  unfold take
  rcases hsort : List.insertionSort refLe references with _ | ⟨a, l⟩
  · simp [uniqueAdj]
  · rw [hsort] at hs
    have hsub := dedupAdjFrom_sublist a l
    constructor
    · exact hs.sublist hsub
    · have hchain := chain'_dedupAdjFrom a l hs
      have hpw : List.Pairwise refLt (dedupAdjFrom a l) :=
        List.chain'_iff_pairwise.mp hchain
      exact hpw.imp (fun hxy => hxy.2)

end RefsModel

/- Shared model of the LSP-side data (Protocol.h): positions, ranges,
locations and the LocatedSymbol result record of XRefs.h. -/

structure Position where
  line : Nat
  character : Nat
deriving DecidableEq, Repr

structure Range where
  start : Position
  stop : Position
deriving DecidableEq, Repr

structure Location where
  uri : String
  range : Range
deriving DecidableEq, Repr

/- LocatedSymbol (XRefs.h): PreferredDeclaration is a plain Location (always
populated on construction), Definition and ID are optional. -/
structure LocatedSymbol where
  name : String
  preferredDeclaration : Location
  definition : Option Location
  id : Option Nat
deriving DecidableEq, Repr

namespace TextModel

/- Model of one Symbol streamed by Index->fuzzyFind into the callback of
locateSymbolTextually (XRefs.cpp).  A SymbolLocation is modelled as
`Option Location` (an invalid SymbolLocation is `none`) and
indexToLSPLocation as the identity on valid locations (URI-to-path mapping
lives outside this repository).  `score` stands for the value computed by
evaluateSymbolAndRelevance (Quality.cpp, outside this repository). -/
structure Sym where
  name : String
  templateArgs : String
  isConstructor : Bool
  canonicalDeclaration : Option Location
  definition : Option Location
  id : Nat
  score : Int
deriving DecidableEq, Repr

/- The fields of SpelledWord (SourceCode.h) consulted by
locateSymbolTextually, with the NodeKind-dependence test folded in:
`dependentName` is `isDependentName NodeKind`, `inStringLiteral` is
`PartOfSpelledToken && isStringLiteral(PartOfSpelledToken->kind())`. -/
structure SpelledWordM where
  text : String
  likelyIdentifier : Bool
  hasExpandedToken : Bool
  dependentName : Bool
  inStringLiteral : Bool
deriving Repr

/- The accumulator of the fuzzyFind callback: the TooMany flag and the
ScoredResults vector. -/
structure TState where
  tooMany : Bool
  scored : List (Int × LocatedSymbol)
deriving Repr

/- One execution of the fuzzyFind callback body of locateSymbolTextually:
skip non-exact names, skip constructors, skip symbols whose declaration
cannot be converted; build the LocatedSymbol (definition overrides the
preferred declaration when present); once 5 results are already held, set
TooMany instead of scoring; otherwise score and append. -/
def processSym (w : SpelledWordM) (st : TState) (s : Sym) : TState :=
  if s.name ≠ w.text then st
  else if s.isConstructor then st
  else
    match s.canonicalDeclaration with
    | none => st
    | some dl =>
      let base : LocatedSymbol :=
        { name := s.name ++ s.templateArgs, preferredDeclaration := dl,
          definition := none, id := some s.id }
      let located : LocatedSymbol :=
        match s.definition with
        | none => base
        | some df => { base with preferredDeclaration := df, definition := some df }
      if st.scored.length ≥ 5 then { st with tooMany := true }
      else { st with scored := st.scored ++ [(s.score, located)] }

/- Comparator of the final `llvm::sort(ScoredResults, A.first > B.first)`,
as its reflexive closure: descending score. -/
def scoreGe (A B : Int × LocatedSymbol) : Prop :=
  B.1 ≤ A.1

instance : DecidableRel scoreGe := fun A B => by
  unfold scoreGe
  exact inferInstance

/- locateSymbolTextually (XRefs.cpp): gate on the word's flags, stream the
index candidates through the callback, drop everything if TooMany was hit,
otherwise emit all scored results ordered by descending score.  The
`!Index` null-check is folded into the caller (the index is assumed
present), and Req.Limit = 10 is the fetch bound of the external index, not
applied here. -/
def locateSymbolTextually (w : SpelledWordM) (syms : List Sym) :
    List LocatedSymbol :=
  if (w.hasExpandedToken ∧ ¬ w.dependentName) ∨ ¬ w.likelyIdentifier then []
  else if w.inStringLiteral then []
  else
    let st := syms.foldl (processSym w) ⟨false, []⟩
    if st.tooMany then []
    else (List.insertionSort scoreGe st.scored).map Prod.snd

/- Concrete candidate builder for evaluating the model: an exact-name,
non-constructor symbol with a valid declaration location. -/
def mkCand (n : Nat) (sc : Int) : Sym :=
  { name := "ab", templateArgs := "", isConstructor := false,
    canonicalDeclaration := some ⟨"f.h", ⟨⟨n, 0⟩, ⟨n, 2⟩⟩⟩,
    definition := none, id := n, score := sc }

def wordAb : SpelledWordM :=
  { text := "ab", likelyIdentifier := true, hasExpandedToken := false,
    dependentName := false, inStringLiteral := false }

/-- Claim C1: locateSymbolTextually is claimed to return nothing once more
than 5 exact-name candidates are scored and otherwise at most 3 located
symbols.  The first part holds, but the function contains no truncation to 3
results, contradicting its own comment ("We limit the results to 3 further
below"): on a stream of 4 exact-name candidates it returns all 4. -/
theorem locateSymbolTextually_no_three_cap :
    (locateSymbolTextually wordAb
        [mkCand 1 4, mkCand 2 3, mkCand 3 2, mkCand 4 1]).length = 4 ∧
    locateSymbolTextually wordAb
        [mkCand 1 6, mkCand 2 5, mkCand 3 4, mkCand 4 3, mkCand 5 2,
         mkCand 6 1] = [] := by
  constructor
  · rfl
  · rfl

end TextModel

namespace MergeModel

/- The Symbol fields consulted by enhanceLocatedSymbolsFromIndex: identity,
canonical declaration and definition, with SymbolLocation modelled as
`Option Location` (invalid = none) and toLSPLocation as the identity on
valid locations. -/
structure Sym where
  id : Nat
  canonicalDeclaration : Option Location
  definition : Option Location
deriving DecidableEq, Repr

/-- Modelled from the spec: getPreferredLocation (XRefs.cpp) runs the AST
location and the index location through mergeSymbol (index/Merge.cpp, which
is not part of this repository) on two mock symbols differing only in their
canonical-declaration location, and keeps the merged location.  The merge's
choice between the two valid locations is abstracted as the parameter
`preferIdx`; since the AST-side location is always valid, the merged
canonical declaration is one of the two inputs and always valid. -/
def getPreferredLocation (preferIdx : Location → Location → Bool)
    (astLoc : Location) (idxLoc : Option Location) : Location :=
  match idxLoc with
  | none => astLoc
  | some l => if preferIdx astLoc l then l else astLoc

/- The body of the Index->lookup callback in enhanceLocatedSymbolsFromIndex
for one result R matched with index symbol S: if the AST yielded a
definition, take the index declaration as the preferred declaration when
valid, and merge the two definitions; otherwise take the index definition
outright and merge the two declarations. -/
def enhanceOne (preferIdx : Location → Location → Bool)
    (R : LocatedSymbol) (S : Sym) : LocatedSymbol :=
  match R.definition with
  | some d =>
    let R1 := match S.canonicalDeclaration with
      | some l => { R with preferredDeclaration := l }
      | none => R
    { R1 with definition := some (getPreferredLocation preferIdx d S.definition) }
  | none =>
    let R1 := { R with definition := S.definition }
    { R1 with preferredDeclaration := getPreferredLocation preferIdx R.preferredDeclaration S.canonicalDeclaration }

/- The batch behaviour of enhanceLocatedSymbolsFromIndex: ResultIndex is
built with try_emplace, so for a duplicated SymbolID only the FIRST result
holding it is recorded and later enhanced; `seen` carries the ids already
emplaced.  The index is one exact batch lookup, modelled as a partial map
from SymbolID to the symbol returned by Index->lookup. -/
def enhanceGo (preferIdx : Location → Location → Bool)
    (index : Nat → Option Sym) :
    List Nat → List LocatedSymbol → List LocatedSymbol
  | _, [] => []
  | seen, R :: rest =>
    match R.id with
    | none => R :: enhanceGo preferIdx index seen rest
    | some i =>
      if i ∈ seen then R :: enhanceGo preferIdx index seen rest
      else
        (match index i with
         | none => R
         | some S => enhanceOne preferIdx R S) ::
          enhanceGo preferIdx index (i :: seen) rest

def enhanceLocatedSymbolsFromIndex (preferIdx : Location → Location → Bool)
    (index : Nat → Option Sym) (results : List LocatedSymbol) :
    List LocatedSymbol :=
  enhanceGo preferIdx index [] results

/- Concrete fixture refuting the universally-quantified form of claim C3:
two results carrying the same SymbolID. -/
def exLoc : Location := ⟨"main.cpp", ⟨⟨1, 0⟩, ⟨1, 1⟩⟩⟩

def exDecl : Location := ⟨"a.h", ⟨⟨2, 0⟩, ⟨2, 1⟩⟩⟩

def exDef : Location := ⟨"a.cpp", ⟨⟨3, 0⟩, ⟨3, 1⟩⟩⟩

def exSym : Sym := ⟨1, some exDecl, some exDef⟩

def exIndex : Nat → Option Sym := fun i => if i = 1 then some exSym else none

def exR : LocatedSymbol := ⟨"x", exLoc, none, some 1⟩

/-- Counterexample to claim C3 as stated: with two results sharing SymbolID 1
(which is found in the index, and whose index symbol has a definition), the
second result is never enhanced — ResultIndex.try_emplace keeps only the
first — so it ends with no Definition even though the index symbol had
one. -/
theorem enhance_skips_duplicate_id :
    enhanceLocatedSymbolsFromIndex (fun _ _ => false) exIndex [exR, exR] =
      [⟨"x", exLoc, some exDef, some 1⟩, exR] ∧
    exIndex 1 = some exSym ∧ exSym.definition = some exDef ∧
    exR.id = some 1 ∧ exR.definition = none := by
  refine ⟨rfl, rfl, rfl, rfl, rfl⟩

theorem enhanceGo_getElem_first (preferIdx : Location → Location → Bool)
    (index : Nat → Option Sym) (pre : List LocatedSymbol) (R : LocatedSymbol)
    (post : List LocatedSymbol) (seen : List Nat) (sid : Nat) (S : Sym)
    (hid : R.id = some sid) (hS : index sid = some S)
    (hseen : sid ∉ seen) (hpre : ∀ R' ∈ pre, R'.id ≠ some sid) :
    (enhanceGo preferIdx index seen (pre ++ R :: post))[pre.length]? =
      some (enhanceOne preferIdx R S) := by
  induction pre generalizing seen with
  | nil =>
    simp only [List.nil_append, enhanceGo, hid, List.length_nil]
    rw [if_neg hseen, hS]
    simp
  | cons P pre' ih =>
    have hP : P.id ≠ some sid := hpre P (by simp)
    have hpre' : ∀ R' ∈ pre', R'.id ≠ some sid := fun R' h => hpre R' (by simp [h])
    rcases hPid : P.id with _ | i
    · simp only [List.cons_append, enhanceGo, hPid, List.length_cons]
      simpa using ih seen hseen hpre'
    · simp only [List.cons_append, enhanceGo, hPid, List.length_cons]
      by_cases hmem : i ∈ seen
      · rw [if_pos hmem]
        simpa using ih seen hseen hpre'
      · rw [if_neg hmem]
        have hne : sid ∉ i :: seen := by
          intro hcon
          rcases List.mem_cons.mp hcon with hcon | hcon
          · exact hP (by rw [hPid, hcon])
          · exact hseen hcon
        rcases hix : index i with _ | S'
        · simpa using ih (i :: seen) hne hpre'
        · simpa using ih (i :: seen) hne hpre'

/-- Claim C3 (amended: the result must be the first in the batch carrying its
SymbolID — try_emplace records only the first, so later duplicates are not
enhanced): such a result ends with a Definition exactly when the AST result
or the index symbol had one; an AST definition is replaced by the
merge-preferred one but never cleared; with no AST definition the index
definition is taken outright, and declarations are merged likewise. -/
theorem enhance_definition_preserved (preferIdx : Location → Location → Bool)
    (index : Nat → Option Sym) (pre post : List LocatedSymbol)
    (R : LocatedSymbol) (sid : Nat) (S : Sym)
    (hid : R.id = some sid) (hS : index sid = some S)
    (hpre : ∀ R' ∈ pre, R'.id ≠ some sid) :
    (enhanceLocatedSymbolsFromIndex preferIdx index
        (pre ++ R :: post))[pre.length]? =
      some (enhanceOne preferIdx R S) ∧
    ((enhanceOne preferIdx R S).definition.isSome ↔
      (R.definition.isSome ∨ S.definition.isSome)) ∧
    (∀ d, R.definition = some d →
      (enhanceOne preferIdx R S).definition =
        some (getPreferredLocation preferIdx d S.definition)) ∧
    (R.definition = none →
      (enhanceOne preferIdx R S).definition = S.definition ∧
      (enhanceOne preferIdx R S).preferredDeclaration =
        getPreferredLocation preferIdx R.preferredDeclaration
          S.canonicalDeclaration) := by
  refine ⟨?_, ?_, ?_, ?_⟩
  · exact enhanceGo_getElem_first preferIdx index pre R post [] sid S hid hS
      (by simp) hpre
  · rcases hdef : R.definition with _ | d
    · simp [enhanceOne, hdef]
    · simp [enhanceOne, hdef]
  · intro d hdef
    simp [enhanceOne, hdef]
  · intro hdef
    simp [enhanceOne, hdef]

/-- Witness for the amended claim C3 at a concrete input: a single result
with SymbolID 1, no AST definition, and an index symbol carrying a
definition. -/
theorem enhance_definition_preserved_witness :
    (enhanceLocatedSymbolsFromIndex (fun _ _ => false) exIndex
        ([] ++ exR :: []))[List.length ([] : List LocatedSymbol)]? =
      some (enhanceOne (fun _ _ => false) exR exSym) ∧
    ((enhanceOne (fun _ _ => false) exR exSym).definition.isSome ↔
      (exR.definition.isSome ∨ exSym.definition.isSome)) ∧
    (∀ d, exR.definition = some d →
      (enhanceOne (fun _ _ => false) exR exSym).definition =
        some (getPreferredLocation (fun _ _ => false) d exSym.definition)) ∧
    (exR.definition = none →
      (enhanceOne (fun _ _ => false) exR exSym).definition =
        exSym.definition ∧
      (enhanceOne (fun _ _ => false) exR exSym).preferredDeclaration =
        getPreferredLocation (fun _ _ => false) exR.preferredDeclaration
          exSym.canonicalDeclaration) :=
  enhance_definition_preserved (fun _ _ => false) exIndex [] [] exR 1 exSym
    rfl rfl (by simp)

end MergeModel

namespace LocateModel

/- Range{} — the value-initialized LSP range used by locateFileReferent. -/
def emptyRange : Range := ⟨⟨0, 0⟩, ⟨0, 0⟩⟩

/- One entry of AST.getIncludeStructure().MainFileIncludes: the resolved
path (empty when unresolved) and the line of the `#`. -/
structure Inclusion where
  resolved : String
  hashLine : Nat
deriving DecidableEq, Repr

/- locateFileReferent (XRefs.cpp): scan the main file's includes; the first
one that is resolved and sits on the cursor's line becomes a LocatedSymbol
whose name is the filename of the resolved path and whose declaration and
definition are both the start of the included file (empty range).
`filename` stands for llvm::sys::path::filename and `canonicalize` for
URIForFile::canonicalize, both outside this translation unit. -/
def locateFileReferent (filename canonicalize : String → String)
    (pos : Position) : List Inclusion → Option LocatedSymbol
  | [] => none
  | inc :: rest =>
    if inc.resolved ≠ "" ∧ inc.hashLine = pos.line then
      some { name := filename inc.resolved,
             preferredDeclaration := ⟨canonicalize inc.resolved, emptyRange⟩,
             definition := some ⟨canonicalize inc.resolved, emptyRange⟩,
             id := none }
    else locateFileReferent filename canonicalize pos rest

/- The token kinds locateSymbolAt's touching-token loop distinguishes. -/
inductive TokKind where
  | identifier
  | kwAuto
  | kwDecltype
  | otherTok
deriving DecidableEq, Repr

structure LTok where
  kind : TokKind
  tokId : Nat
deriving DecidableEq, Repr

/- The collaborators of locateSymbolAt, abstracted as functions of the
touched token: `locMac` is locateMacroReferent, `deducedSyms` the composite
getDeducedType / locateSymbolForType path for auto and decltype (empty list
covers both a failed deduction and an empty locate result — the loop
continues in either case), `astDirect` is locateASTReferent at the cursor
(argument: the touched identifier, if any), `astNearby` is locateASTReferent
at a nearby token, `nearbyTok` the result of findNearbyIdentifier, `textual`
the result of locateSymbolTextually, and `hasWord` whether
SpelledWord::touching produced a word.  `curLocValid` models whether
sourceLocationInMainFile succeeded. -/
structure LocateEnv where
  filename : String → String
  canonicalize : String → String
  includes : List Inclusion
  curLocValid : Bool
  toks : List LTok
  locMac : LTok → Option LocatedSymbol
  deducedSyms : LTok → List LocatedSymbol
  astDirect : Option LTok → List LocatedSymbol
  hasWord : Bool
  nearbyTok : Option LTok
  astNearby : LTok → List LocatedSymbol
  textual : List LocatedSymbol

/- Outcome of the loop over TokensTouchingCursor: either an early return
(macro referent, or deduced-type symbols) or the touched identifier (if
any) to hand to locateASTReferent. -/
inductive ScanOut where
  | ret (res : List LocatedSymbol)
  | touched (t : Option LTok)
deriving Repr

/- The loop over spelledTokensTouching the cursor in locateSymbolAt: an
identifier token is first tried as a macro (early return), otherwise it
becomes the TouchedIdentifier and the loop breaks; auto/decltype tokens
return deduced-type symbols when non-empty, else the loop continues. -/
def scanToks (env : LocateEnv) : List LTok → ScanOut
  | [] => .touched none
  | t :: ts =>
    match t.kind with
    | .identifier =>
      match env.locMac t with
      | some m => .ret [m]
      | none => .touched (some t)
    | .kwAuto | .kwDecltype =>
      if (env.deducedSyms t).isEmpty then scanToks env ts
      else .ret (env.deducedSyms t)
    | .otherTok => scanToks env ts

/- locateSymbolAt (XRefs.cpp): include referent first; bail out if the
position cannot be mapped; scan the touching tokens (macro / deduced type /
touched identifier); direct AST resolution; then the fallback chain —
nearby identifier (macro first, then AST at the nearby token), and finally
the textual index search. -/
def locateSymbolAt (env : LocateEnv) (pos : Position) : List LocatedSymbol :=
  match locateFileReferent env.filename env.canonicalize pos env.includes with
  | some f => [f]
  | none =>
    if ¬ env.curLocValid then []
    else
      match scanToks env env.toks with
      | .ret r => r
      | .touched tid =>
        let astResults := env.astDirect tid
        if ¬ astResults.isEmpty then astResults
        else if ¬ env.hasWord then []
        else
          match env.nearbyTok with
          | some nt =>
            (match env.locMac nt with
             | some m => [m]
             | none =>
               let nearbyResults := env.astNearby nt
               if ¬ nearbyResults.isEmpty then nearbyResults
               else if env.textual.isEmpty then [] else env.textual)
          | none => if env.textual.isEmpty then [] else env.textual

/- Concrete fixture refuting the claimed stage order: the cursor token is an
identifier that names a macro, while direct AST resolution would also
succeed. -/
def symM : LocatedSymbol := ⟨"M", ⟨"m.h", emptyRange⟩, some ⟨"m.h", emptyRange⟩, none⟩

def symA : LocatedSymbol := ⟨"A", ⟨"a.h", emptyRange⟩, none, some 7⟩

def tokIdent : LTok := ⟨.identifier, 0⟩

def envC4 : LocateEnv :=
  { filename := id, canonicalize := id, includes := [], curLocValid := true,
    toks := [tokIdent], locMac := fun _ => some symM,
    deducedSyms := fun _ => [], astDirect := fun _ => [symA],
    hasWord := false, nearbyTok := none, astNearby := fun _ => [],
    textual := [] }

/-- Counterexample to claim C4 as stated: when the touched identifier is a
macro, locateSymbolAt returns the macro referent BEFORE attempting direct
AST resolution, even though direct AST resolution would have produced a
(different, non-empty) result — so a macro result is not conditional on
direct resolution having failed. -/
theorem locateSymbolAt_macro_preempts_ast :
    locateSymbolAt envC4 ⟨5, 3⟩ = [symM] ∧
    envC4.astDirect (some tokIdent) = [symA] ∧ symM ≠ symA := by
  refine ⟨rfl, rfl, by decide⟩

/-- Claim C4 (amended: the actual stage order is (0) include-file referent,
(1) the touching-token scan — macro resolution of a touched identifier, or
deduced-type resolution for auto/decltype — (2) direct AST resolution,
(3) nearby-identifier search, macro first then AST at the nearby token,
(4) textual index search; each later stage runs only when every earlier
stage produced nothing). -/
theorem locateSymbolAt_stage_order (env : LocateEnv) (pos : Position) :
    (∀ f, locateFileReferent env.filename env.canonicalize pos env.includes =
        some f → locateSymbolAt env pos = [f]) ∧
    (locateFileReferent env.filename env.canonicalize pos env.includes = none →
      env.curLocValid = false → locateSymbolAt env pos = []) ∧
    (locateFileReferent env.filename env.canonicalize pos env.includes = none →
      env.curLocValid = true → ∀ r, scanToks env env.toks = .ret r →
      locateSymbolAt env pos = r) ∧
    (locateFileReferent env.filename env.canonicalize pos env.includes = none →
      env.curLocValid = true → ∀ tid, scanToks env env.toks = .touched tid →
      env.astDirect tid ≠ [] → locateSymbolAt env pos = env.astDirect tid) ∧
    (locateFileReferent env.filename env.canonicalize pos env.includes = none →
      env.curLocValid = true → ∀ tid, scanToks env env.toks = .touched tid →
      env.astDirect tid = [] → env.hasWord = false →
      locateSymbolAt env pos = []) ∧
    (locateFileReferent env.filename env.canonicalize pos env.includes = none →
      env.curLocValid = true → ∀ tid, scanToks env env.toks = .touched tid →
      env.astDirect tid = [] → env.hasWord = true →
      ∀ nt, env.nearbyTok = some nt → ∀ m, env.locMac nt = some m →
      locateSymbolAt env pos = [m]) ∧
    (locateFileReferent env.filename env.canonicalize pos env.includes = none →
      env.curLocValid = true → ∀ tid, scanToks env env.toks = .touched tid →
      env.astDirect tid = [] → env.hasWord = true →
      ∀ nt, env.nearbyTok = some nt → env.locMac nt = none →
      env.astNearby nt ≠ [] → locateSymbolAt env pos = env.astNearby nt) ∧
    (locateFileReferent env.filename env.canonicalize pos env.includes = none →
      env.curLocValid = true → ∀ tid, scanToks env env.toks = .touched tid →
      env.astDirect tid = [] → env.hasWord = true →
      (env.nearbyTok = none ∨
        (∃ nt, env.nearbyTok = some nt ∧ env.locMac nt = none ∧
          env.astNearby nt = [])) →
      locateSymbolAt env pos = env.textual) := by
  unfold locateSymbolAt
  refine ⟨?_, ?_, ?_, ?_, ?_, ?_, ?_, ?_⟩
  · intro f hf
    rw [hf]
  · intro hf hcur
    rw [hf, hcur]
    simp
  · intro hf hcur r hscan
    rw [hf, hcur, hscan]
    simp
  · intro hf hcur tid hscan hast
    rw [hf, hcur, hscan]
    simp [hast]
  · intro hf hcur tid hscan hast hw
    rw [hf, hcur, hscan]
    simp [hast, hw]
  · intro hf hcur tid hscan hast hw nt hnt m hm
    rw [hf, hcur, hscan]
    simp [hast, hw, hnt, hm]
  · intro hf hcur tid hscan hast hw nt hnt hm hanb
    rw [hf, hcur, hscan]
    simp [hast, hw, hnt, hm, hanb]
  · intro hf hcur tid hscan hast hw hrest
    rw [hf, hcur, hscan]
    rcases hrest with hnone | ⟨nt, hnt, hm, hanb⟩
    · rcases htext : env.textual with _ | ⟨x, xs⟩
      · simp [hast, hw, hnone, htext]
      · simp [hast, hw, hnone, htext]
    · rcases htext : env.textual with _ | ⟨x, xs⟩
      · simp [hast, hw, hnt, hm, hanb, htext]
      · simp [hast, hw, hnt, hm, hanb, htext]

/-- Witness for the amended claim C4 at a concrete input: the include-line
stage returns the include referent ahead of everything else. -/
theorem locateSymbolAt_stage_order_witness :
    locateSymbolAt
      { envC4 with includes := [⟨"foo.h", 5⟩] } ⟨5, 3⟩ =
      [{ name := "foo.h", preferredDeclaration := ⟨"foo.h", emptyRange⟩,
         definition := some ⟨"foo.h", emptyRange⟩, id := none }] :=
  (locateSymbolAt_stage_order { envC4 with includes := [⟨"foo.h", 5⟩] }
      ⟨5, 3⟩).1 _ rfl

end LocateModel

namespace LocateModel

theorem locateFileReferent_isSome_of_match (filename canonicalize : String → String)
    (pos : Position) (includes : List Inclusion) (inc : Inclusion)
    (hmem : inc ∈ includes) (hres : inc.resolved ≠ "")
    (hline : inc.hashLine = pos.line) :
    ∃ F, locateFileReferent filename canonicalize pos includes = some F := by
  induction includes with
  | nil => cases hmem
  | cons i rest ih =>
    unfold locateFileReferent
    by_cases hcond : i.resolved ≠ "" ∧ i.hashLine = pos.line
    · rw [if_pos hcond]
      exact ⟨_, rfl⟩
    · rw [if_neg hcond]
      rcases List.mem_cons.mp hmem with rfl | hmem'
      · exact absurd ⟨hres, hline⟩ hcond
      · exact ih hmem'

theorem locateFileReferent_shape (filename canonicalize : String → String)
    (pos : Position) (includes : List Inclusion) (F : LocatedSymbol)
    (hF : locateFileReferent filename canonicalize pos includes = some F) :
    F.definition = some F.preferredDeclaration ∧
    F.preferredDeclaration.range = emptyRange ∧
    ∃ inc0 ∈ includes, inc0.resolved ≠ "" ∧ inc0.hashLine = pos.line ∧
      F.name = filename inc0.resolved ∧
      F.preferredDeclaration.uri = canonicalize inc0.resolved := by
  induction includes with
  | nil => cases hF
  | cons i rest ih =>
    unfold locateFileReferent at hF
    by_cases hcond : i.resolved ≠ "" ∧ i.hashLine = pos.line
    · rw [if_pos hcond] at hF
      cases hF
      exact ⟨rfl, rfl, i, by simp, hcond.1, hcond.2, rfl, rfl⟩
    · rw [if_neg hcond] at hF
      obtain ⟨h1, h2, inc0, hmem0, hrest⟩ := ih hF
      exact ⟨h1, h2, inc0, List.mem_cons.mpr (Or.inr hmem0), hrest⟩

/-- Claim C10: for a position on the line of a resolved include of the main
file, locateSymbolAt returns exactly one LocatedSymbol, named after the
included file, with Definition equal to PreferredDeclaration (the start of
the included file, empty range), and without consulting the AST, the index,
or any fallback stage — the result is the same for any environment that
agrees only on the include table (all AST/index/fallback collaborators may
differ arbitrarily). -/
theorem locateSymbolAt_include_line (env env' : LocateEnv) (pos : Position)
    (hinc : env'.includes = env.includes) (hfn : env'.filename = env.filename)
    (hcan : env'.canonicalize = env.canonicalize) (inc : Inclusion)
    (hmem : inc ∈ env.includes) (hres : inc.resolved ≠ "")
    (hline : inc.hashLine = pos.line) :
    ∃ F, locateSymbolAt env pos = [F] ∧ locateSymbolAt env' pos = [F] ∧
      F.definition = some F.preferredDeclaration ∧
      F.preferredDeclaration.range = emptyRange ∧
      ∃ inc0 ∈ env.includes, inc0.resolved ≠ "" ∧ inc0.hashLine = pos.line ∧
        F.name = env.filename inc0.resolved ∧
        F.preferredDeclaration.uri = env.canonicalize inc0.resolved := by
  obtain ⟨F, hF⟩ := locateFileReferent_isSome_of_match env.filename
    env.canonicalize pos env.includes inc hmem hres hline
  obtain ⟨h1, h2, h3⟩ := locateFileReferent_shape env.filename env.canonicalize
    pos env.includes F hF
  refine ⟨F, ?_, ?_, h1, h2, h3⟩
  · unfold locateSymbolAt
    rw [hF]
  · unfold locateSymbolAt
    rw [hinc, hfn, hcan, hF]

/-- Witness for claim C10 at a concrete input: one resolved include on line
5, two environments differing in every AST/index collaborator. -/
theorem locateSymbolAt_include_line_witness :
    ∃ F, locateSymbolAt { envC4 with includes := [⟨"foo.h", 5⟩] } ⟨5, 3⟩ = [F] ∧
      locateSymbolAt
        { filename := id, canonicalize := id, includes := [⟨"foo.h", 5⟩],
          curLocValid := false, toks := [], locMac := fun _ => none,
          deducedSyms := fun _ => [symM], astDirect := fun _ => [symA],
          hasWord := true, nearbyTok := some tokIdent,
          astNearby := fun _ => [symA], textual := [symA] } ⟨5, 3⟩ = [F] ∧
      F.definition = some F.preferredDeclaration ∧
      F.preferredDeclaration.range = emptyRange ∧
      ∃ inc0 ∈ ({ envC4 with includes := [⟨"foo.h", 5⟩] } : LocateEnv).includes,
        inc0.resolved ≠ "" ∧ inc0.hashLine = Position.line ⟨5, 3⟩ ∧
        F.name = id inc0.resolved ∧
        F.preferredDeclaration.uri = id inc0.resolved :=
  locateSymbolAt_include_line { envC4 with includes := [⟨"foo.h", 5⟩] }
    { filename := id, canonicalize := id, includes := [⟨"foo.h", 5⟩],
      curLocValid := false, toks := [], locMac := fun _ => none,
      deducedSyms := fun _ => [symM], astDirect := fun _ => [symA],
      hasWord := true, nearbyTok := some tokIdent,
      astNearby := fun _ => [symA], textual := [symA] } ⟨5, 3⟩
    rfl rfl rfl ⟨"foo.h", 5⟩ (by simp) (by decide) rfl

end LocateModel

namespace DeclModel

/- The dynamic-type tests made by getPreferredDecl: Objective-C interface,
Objective-C protocol, or anything else. -/
inductive DKind where
  | objcInterface
  | objcProtocol
  | otherKind
deriving DecidableEq, Repr

/- A world of named declarations, indexed by Nat: `canon` models
Decl::getCanonicalDecl, `kind` the dyn_cast tests, and `defn` the
getDefinition accessor of ObjCInterfaceDecl/ObjCProtocolDecl (none when no
definition is visible). -/
structure DeclWorld where
  canon : Nat → Nat
  kind : Nat → DKind
  defn : Nat → Option Nat

/- getPreferredDecl (XRefs.cpp): take the canonical redeclaration, then for
Objective-C interfaces and protocols prefer the definition over the forward
declaration when one exists. -/
def getPreferredDecl (W : DeclWorld) (D : Nat) : Nat :=
  let C := W.canon D
  match W.kind C with
  | .objcInterface | .objcProtocol =>
    match W.defn C with
    | some definitionID => definitionID
    | none => C
  | .otherKind => C

/-- Claim C5: canonicalization is idempotent —
getPreferredDecl (getPreferredDecl D) = getPreferredDecl D — given the
Clang AST invariants that getCanonicalDecl is idempotent at D and that an
Objective-C definition is a redeclaration of the same entity (its canonical
declaration is the entity's canonical declaration, which keeps the same
visible definition). -/
theorem getPreferredDecl_idem (W : DeclWorld) (D : Nat)
    (hcanon : W.canon (W.canon D) = W.canon D)
    (hdefn : ∀ e, W.defn (W.canon D) = some e → W.canon e = W.canon D) :
    getPreferredDecl W (getPreferredDecl W D) = getPreferredDecl W D := by
  unfold getPreferredDecl
  rcases hkind : W.kind (W.canon D) with _ | _ | _
  · rcases hd : W.defn (W.canon D) with _ | e
    · simp only [hkind, hd, hcanon]
    · have he : W.canon e = W.canon D := hdefn e hd
      simp only [hkind, hd, he]
  · rcases hd : W.defn (W.canon D) with _ | e
    · simp only [hkind, hd, hcanon]
    · have he : W.canon e = W.canon D := hdefn e hd
      simp only [hkind, hd, he]
  · simp only [hkind, hcanon]

/- Two-stage Objective-C fixture: decl 0 is the forward declaration
(canonical), decl 1 the interface definition. -/
def objcWorld : DeclWorld :=
  { canon := fun d => if d = 1 then 0 else d,
    kind := fun _ => .objcInterface,
    defn := fun d => if d ≤ 1 then some 1 else none }

/-- Witness for claim C5 on the two-stage Objective-C fixture: starting from
the forward declaration, the preferred declaration is the interface
definition, and canonicalizing again is stable. -/
theorem getPreferredDecl_idem_witness :
    getPreferredDecl objcWorld (getPreferredDecl objcWorld 0) =
      getPreferredDecl objcWorld 0 :=
  getPreferredDecl_idem objcWorld 0 (by decide)
    (fun e he => by
      simp only [objcWorld] at he ⊢
      cases he
      rfl)

end DeclModel

namespace DefModel

/- The declaration shapes distinguished by getDefinition (XRefs.cpp), in the
order of its dyn_cast cascade.  `self` is the declaration's own identity;
definitions are identities of other declarations.  For a class template,
`pattern` is `getTemplatedDecl()` paired with that record's definition; for
an Objective-C method, `implMethod` is `some r` when the method's container
has a corresponding @implementation and looking the selector up there gives
`r` (itself optional — Impl->getMethod can fail), and `none` when there is
no container implementation (the cascade then falls through to the final
nullptr).  `valueDecl` covers the remaining ValueDecl kinds (enum
constants, fields, ivars, non-type template parameters, ...), and
`namespaceK` the kinds that allow multiple definitions (namespaces etc.),
which reach the final `return nullptr`. -/
inductive CDecl where
  | tag (self : Nat) (defn : Option Nat)
  | var (self : Nat) (defn : Option Nat)
  | func (self : Nat) (defn : Option Nat)
  | classTemplate (self : Nat) (pattern : Option (Nat × Option Nat))
  | objcMethod (self : Nat) (isDef : Bool) (ctxInvalid : Bool)
      (implMethod : Option (Option Nat))
  | objcContainer (self : Nat) (impl : Option Nat)
  | valueDecl (self : Nat)
  | templateTypeParm (self : Nat)
  | templateTemplateParm (self : Nat)
  | namespaceK (self : Nat)
deriving DecidableEq, Repr

/- getDefinition (XRefs.cpp): the per-kind single-definition cascade. -/
def getDefinition : CDecl → Option Nat
  | .tag _ d => d
  | .var _ d => d
  | .func _ d => d
  | .classTemplate _ pat =>
    match pat with
    | some (_, d) => d
    | none => none
  | .objcMethod self isDef ctxInvalid implMethod =>
    if isDef then some self
    else if ctxInvalid then none
    else
      match implMethod with
      | some r => r
      | none => none
  | .objcContainer _ impl => impl
  | .valueDecl self => some self
  | .templateTypeParm self => some self
  | .templateTemplateParm self => some self
  | .namespaceK _ => none

/- The Definition field computed by AddResultDecl in locateASTReferent:
set only when getDefinition is non-null and its name location converts
(makeLocation, modelled as the partial map `mkLoc`). -/
def addResultDefinition (mkLoc : Nat → Option Location) (d : CDecl) :
    Option Location :=
  match getDefinition d with
  | some defD => mkLoc defD
  | none => none

/-- Claim C6 (amended: the "never carry a Definition in locateSymbolAt
results" tail only holds for the AST construction — index enhancement still
attaches whatever definition the external index supplies, for any kind):
getDefinition implements the per-kind definition-uniqueness rule —
tag/variable/function declarations yield their unique definition if any,
class templates the definition of the templated pattern, an Objective-C
method that is itself a definition yields itself, and multi-definition
entities (namespaces) yield null, so AddResultDecl leaves such a
LocatedSymbol's Definition unset; after enhanceLocatedSymbolsFromIndex its
Definition is exactly the index symbol's definition (so it stays absent
unless the index itself carries one). -/
theorem getDefinition_per_kind :
    (∀ s d, getDefinition (.tag s d) = d) ∧
    (∀ s d, getDefinition (.var s d) = d) ∧
    (∀ s d, getDefinition (.func s d) = d) ∧
    (∀ s p pd, getDefinition (.classTemplate s (some (p, pd))) = pd) ∧
    (∀ s ctx impl, getDefinition (.objcMethod s true ctx impl) = some s) ∧
    (∀ s, getDefinition (.namespaceK s) = none) ∧
    (∀ mkLoc s, addResultDefinition mkLoc (.namespaceK s) = none) ∧
    (∀ preferIdx (S : MergeModel.Sym) (nm : String) (loc : Location)
      (oid : Option Nat) (mkLoc : Nat → Option Location) (s : Nat),
      (MergeModel.enhanceOne preferIdx
        ⟨nm, loc, addResultDefinition mkLoc (.namespaceK s), oid⟩ S).definition
        = S.definition) := by
  refine ⟨fun s d => rfl, fun s d => rfl, fun s d => rfl, fun s p pd => rfl,
    fun s ctx impl => rfl, fun s => rfl, fun mkLoc s => rfl,
    fun preferIdx S nm loc oid mkLoc s => rfl⟩

/- Fixture for the index-enhancement side of C6: a LocatedSymbol built by
AddResultDecl from a namespace declaration (Definition unset on the AST
path, SymbolID 9 attached), and an index whose symbol 9 carries a
definition location. -/
def nsLoc : Location := ⟨"ns.h", ⟨⟨4, 0⟩, ⟨4, 2⟩⟩⟩

def nsIdxDef : Location := ⟨"ns_all.h", ⟨⟨9, 0⟩, ⟨9, 2⟩⟩⟩

def nsResult : LocatedSymbol :=
  ⟨"ns", nsLoc, addResultDefinition (fun _ => some nsLoc) (.namespaceK 7),
    some 9⟩

def nsIndex : Nat → Option MergeModel.Sym :=
  fun i => if i = 9 then some ⟨9, some nsLoc, some nsIdxDef⟩ else none

/-- Counterexample to claim C6 as stated: a namespace-kind symbol (whose
getDefinition is null and whose AST-built LocatedSymbol therefore has no
Definition) still ends up carrying a Definition in locateSymbolAt results
once enhanceLocatedSymbolsFromIndex runs against an index whose symbol
record supplies a definition location — the no-AST-definition branch takes
the index definition outright regardless of kind. -/
theorem namespace_definition_from_index :
    getDefinition (.namespaceK 7) = none ∧
    nsResult.definition = none ∧
    MergeModel.enhanceLocatedSymbolsFromIndex (fun _ _ => false) nsIndex
      [nsResult] = [⟨"ns", nsLoc, some nsIdxDef, some 9⟩] := by
  refine ⟨rfl, rfl, rfl⟩

end DefModel

namespace ImplModel

/- The Symbol fields consulted by the relations callback of findImplementors
(XRefs.cpp): name, canonical declaration and definition, with
indexToLSPLocation modelled as the identity on valid locations. -/
structure ISym where
  name : String
  canonicalDeclaration : Option Location
  definition : Option Location
deriving DecidableEq, Repr

/- findImplementors (XRefs.cpp): for each Object streamed by
Index->relations, a result is emplaced only after its declaration location
converts; the definition is attached afterwards, and a failed definition
conversion leaves the already-emplaced result without a Definition. -/
def findImplementors (objs : List ISym) : List LocatedSymbol :=
  objs.filterMap (fun o =>
    match o.canonicalDeclaration with
    | none => none
    | some dl =>
      some { name := o.name, preferredDeclaration := dl,
             definition := o.definition, id := none })

end ImplModel

namespace TextModel

/- Provenance of a textual-fallback result: which streamed symbol it was
built from and how its two locations were filled in. -/
def builtFrom (s : LocatedSymbol) (sym : Sym) : Prop :=
  (sym.definition = none →
    sym.canonicalDeclaration = some s.preferredDeclaration ∧
    s.definition = none) ∧
  (∀ df, sym.definition = some df →
    s.preferredDeclaration = df ∧ s.definition = some df)

theorem processSym_scored_mem (w : SpelledWordM) (st : TState) (sym : Sym)
    (p : Int) (s : LocatedSymbol)
    (h : (p, s) ∈ (processSym w st sym).scored) :
    (p, s) ∈ st.scored ∨ builtFrom s sym := by
  obtain ⟨nm, ta, ctor, cd, df, sid, sc⟩ := sym
  unfold processSym at h
  by_cases h1 : nm ≠ w.text
  · rw [if_pos h1] at h
    exact Or.inl h
  · rw [if_neg h1] at h
    rcases ctor with _ | _
    · simp only [Bool.false_eq_true, if_false] at h
      rcases cd with _ | dl
      · exact Or.inl h
      · simp only at h
        by_cases h5 : st.scored.length ≥ 5
        · rw [if_pos h5] at h
          exact Or.inl h
        · rw [if_neg h5] at h
          simp only at h
          rcases List.mem_append.mp h with hmem | hmem
          · exact Or.inl hmem
          · rcases df with _ | dfl
            · simp only [List.mem_singleton, Prod.mk.injEq] at hmem
              right
              rw [hmem.2]
              unfold builtFrom
              refine ⟨fun _ => ⟨rfl, rfl⟩, fun df' hcon => ?_⟩
              cases hcon
            · simp only [List.mem_singleton, Prod.mk.injEq] at hmem
              right
              rw [hmem.2]
              unfold builtFrom
              refine ⟨fun hcon => ?_, fun df' hdf' => ?_⟩
              · cases hcon
              · cases hdf'
                exact ⟨rfl, rfl⟩
    · simp only [if_true] at h
      exact Or.inl h

theorem foldl_processSym_scored_mem (w : SpelledWordM) (syms : List Sym)
    (st : TState) (p : Int) (s : LocatedSymbol)
    (h : (p, s) ∈ (syms.foldl (processSym w) st).scored) :
    (p, s) ∈ st.scored ∨ ∃ sym ∈ syms, builtFrom s sym := by
  induction syms generalizing st with
  | nil => exact Or.inl h
  | cons sym rest ih =>
    rw [List.foldl_cons] at h
    rcases ih (processSym w st sym) h with hmem | ⟨sym', hmem', hb⟩
    · rcases processSym_scored_mem w st sym p s hmem with hmem2 | hb
      · exact Or.inl hmem2
      · exact Or.inr ⟨sym, by simp, hb⟩
    · exact Or.inr ⟨sym', by simp [hmem'], hb⟩

theorem locateSymbolTextually_provenance (w : SpelledWordM)
    (syms : List Sym) (s : LocatedSymbol)
    (h : s ∈ locateSymbolTextually w syms) :
    ∃ sym ∈ syms, builtFrom s sym := by
  unfold locateSymbolTextually at h
  by_cases h1 : (w.hasExpandedToken = true ∧ ¬ w.dependentName = true) ∨
      ¬ w.likelyIdentifier = true
  · rw [if_pos h1] at h
    cases h
  · rw [if_neg h1] at h
    by_cases h2 : w.inStringLiteral = true
    · rw [if_pos h2] at h
      cases h
    · rw [if_neg h2] at h
      simp only at h
      by_cases h3 : (syms.foldl (processSym w) ⟨false, []⟩).tooMany = true
      · rw [if_pos h3] at h
        cases h
      · rw [if_neg h3] at h
        obtain ⟨⟨p, s'⟩, hmem, hs⟩ := List.mem_map.mp h
        cases hs
        have hperm := List.perm_insertionSort scoreGe
          (syms.foldl (processSym w) ⟨false, []⟩).scored
        have hmem2 := hperm.mem_iff.mp hmem
        rcases foldl_processSym_scored_mem w syms ⟨false, []⟩ p s' hmem2 with
          hfalse | hgood
        · cases hfalse
        · exact hgood

end TextModel

/-- Claim C9: every LocatedSymbol returned by a resolving operation has its
PreferredDeclaration populated from a location actually known for it, and
carries a Definition only when a definition location was known: (1) a
findImplementors result takes both locations from its index symbol — the
declaration always valid, the definition only if the index symbol had one;
(2) a textual-fallback result is built from a streamed index symbol, its
declaration from the symbol's canonical declaration (or its definition,
which then also populates Definition); (3) on the AST path, AddResultDecl
sets Definition only when getDefinition found one; (4) index enhancement
adds a Definition only when the AST or the index symbol had one. -/
theorem locatedSymbol_location_invariants :
    (∀ objs s, s ∈ ImplModel.findImplementors objs →
      ∃ o ∈ objs, o.canonicalDeclaration = some s.preferredDeclaration ∧
        s.definition = o.definition) ∧
    (∀ w syms s, s ∈ TextModel.locateSymbolTextually w syms →
      ∃ sym ∈ syms, TextModel.builtFrom s sym) ∧
    (∀ mkLoc d, (DefModel.addResultDefinition mkLoc d).isSome →
      (DefModel.getDefinition d).isSome) ∧
    (∀ preferIdx R S, (MergeModel.enhanceOne preferIdx R S).definition.isSome →
      (R.definition.isSome ∨ S.definition.isSome)) := by
  refine ⟨?_, ?_, ?_, ?_⟩
  · intro objs s hs
    obtain ⟨o, hmem, ho⟩ := List.mem_filterMap.mp hs
    refine ⟨o, hmem, ?_⟩
    rcases hdl : o.canonicalDeclaration with _ | dl
    · rw [hdl] at ho
      cases ho
    · rw [hdl] at ho
      simp only [Option.some.injEq] at ho
      rw [← ho]
      exact ⟨rfl, rfl⟩
  · exact fun w syms s h => TextModel.locateSymbolTextually_provenance w syms s h
  · intro mkLoc d h
    unfold DefModel.addResultDefinition at h
    rcases hd : DefModel.getDefinition d with _ | defD
    · rw [hd] at h
      cases h
    · simp
  · intro preferIdx R S h
    unfold MergeModel.enhanceOne at h
    rcases hd : R.definition with _ | d
    · rw [hd] at h
      simp only at h
      right
      simpa using h
    · exact Or.inl (by simp [hd])

/-- Witness for claim C9 on concrete inputs: one relations result with a
valid declaration and no definition, one textual candidate, one namespace
declaration, one enhancement of an AST-definition-free result. -/
theorem locatedSymbol_location_invariants_witness :
    (∃ o ∈ [(⟨"n", some ⟨"b.h", LocateModel.emptyRange⟩, none⟩ : ImplModel.ISym)],
      o.canonicalDeclaration =
        some (LocatedSymbol.preferredDeclaration
          ⟨"n", ⟨"b.h", LocateModel.emptyRange⟩, none, none⟩) ∧
      LocatedSymbol.definition ⟨"n", ⟨"b.h", LocateModel.emptyRange⟩, none, none⟩ =
        o.definition) ∧
    (∃ sym ∈ [TextModel.mkCand 1 4],
      TextModel.builtFrom
        ⟨"ab", ⟨"f.h", ⟨⟨1, 0⟩, ⟨1, 2⟩⟩⟩, none, some 1⟩ sym) := by
  constructor
  · exact locatedSymbol_location_invariants.1
      [⟨"n", some ⟨"b.h", LocateModel.emptyRange⟩, none⟩]
      ⟨"n", ⟨"b.h", LocateModel.emptyRange⟩, none, none⟩ (by decide)
  · exact locatedSymbol_location_invariants.2.1 TextModel.wordAb
      [TextModel.mkCand 1 4]
      ⟨"ab", ⟨"f.h", ⟨⟨1, 0⟩, ⟨1, 2⟩⟩⟩, none, some 1⟩ (by decide)

namespace NearbyModel

/- A spelled token of the main file as consulted by findNearbyIdentifier
(XRefs.cpp): its spelling line and column (both 1-based; SourceLocations
within one file are ordered lexicographically by them), whether it is an
identifier token, its text, and whether it is plausibly part of the AST —
`tokenSpelledAt(loc, TB) || TB.expansionStartingAt(&Tok)` — as opposed to
e.g. a disabled preprocessor section. -/
structure NToken where
  line : Nat
  col : Nat
  isIdent : Bool
  text : String
  astPlausible : Bool
deriving DecidableEq, Repr

/- The SpelledWord fields consulted by findNearbyIdentifier. -/
structure WordM where
  line : Nat
  col : Nat
  text : String
  hasExpandedToken : Bool
  inStringLiteral : Bool
deriving DecidableEq, Repr

/- SourceLocation order within one file: lexicographic on (line, column). -/
def locLt (a b : Nat × Nat) : Prop :=
  a.1 < b.1 ∨ (a.1 = b.1 ∧ a.2 < b.2)

instance : DecidableRel locLt := fun a b => by
  unfold locLt
  exact inferInstance

def tokLoc (t : NToken) : Nat × Nat := (t.line, t.col)

def wordLoc (w : WordM) : Nat × Nat := (w.line, w.col)

/- The Cost lambda: forward line distance, or twice the backward one. -/
def cost (wordLine line : Nat) : Nat :=
  if wordLine ≤ line then line - wordLine else 2 * (wordLine - line)

/- MaxDistance = 1U << min(Word.Text.size(), 31). -/
def maxDistance (w : WordM) : Nat := 2 ^ (min w.text.length 31)

/- LineMin = max(1, WordLine + 1 - MaxDistance/2) in unsigned arithmetic. -/
def lineMin (w : WordM) : Nat :=
  if w.line + 1 ≤ maxDistance w / 2 then 1 else w.line + 1 - maxDistance w / 2

/- LineMax = WordLine + 1 + MaxDistance. -/
def lineMax (w : WordM) : Nat := w.line + 1 + maxDistance w

/- BestCost starts at unsigned(-1). -/
def uintMax : Nat := 4294967295

/- The Consider lambda of findNearbyIdentifier: given the (BestCost,
BestTok) state and a token, return the new state and whether the enclosing
loop should break.  LocMin/LocMax are the locations of column 1 on
lineMin/lineMax (SM.translateLineCol(File, Line, 1)). -/
def consider (w : WordM) (st : Nat × Option NToken) (t : NToken) :
    (Nat × Option NToken) × Bool :=
  if locLt (tokLoc t) (lineMin w, 1) ∨ locLt (lineMax w, 1) (tokLoc t) then
    (st, true)
  else if ¬ (t.isIdent = true ∧ t.text = w.text) then (st, false)
  else if tokLoc t = wordLoc w then (st, false)
  else
    let tokCost := cost w.line t.line
    if st.1 ≤ tokCost then (st, true)
    else if ¬ t.astPlausible = true then (st, false)
    else ((tokCost, some t), false)

/- One of the two search loops: run Consider over the tokens in traversal
order, stopping when it asks to break. -/
def runLoop (w : WordM) : List NToken → (Nat × Option NToken) → (Nat × Option NToken)
  | [], st => st
  | t :: ts, st =>
    let r := consider w st t
    if r.2 then r.1 else runLoop w ts r.1

/- The partition of the spelled-token stream at the word's location
(llvm::partition_point): tokens at or after the word, in order, and tokens
before the word, reversed. -/
def fwdToks (w : WordM) (toks : List NToken) : List NToken :=
  toks.dropWhile (fun t => decide (locLt (tokLoc t) (wordLoc w)))

def bwdToks (w : WordM) (toks : List NToken) : List NToken :=
  (toks.takeWhile (fun t => decide (locLt (tokLoc t) (wordLoc w)))).reverse

/- findNearbyIdentifier (XRefs.cpp): gate on the word's flags, then search
forward from the word and afterwards backward, and return the best token. -/
def findNearbyIdentifier (w : WordM) (toks : List NToken) : Option NToken :=
  if w.hasExpandedToken then none
  else if w.inStringLiteral then none
  else
    (runLoop w (bwdToks w toks) (runLoop w (fwdToks w toks) (uintMax, none))).2

/- The tokens Consider can accept: in the search window, identifiers with
exactly the word's text, not at the word's own location, and plausibly part
of the AST. -/
def inBounds (w : WordM) (t : NToken) : Prop :=
  ¬ locLt (tokLoc t) (lineMin w, 1) ∧ ¬ locLt (lineMax w, 1) (tokLoc t)

instance (w : WordM) : DecidablePred (inBounds w) := fun t => by
  unfold inBounds
  exact inferInstance

def isCand (w : WordM) (t : NToken) : Prop :=
  inBounds w t ∧ t.isIdent = true ∧ t.text = w.text ∧
  tokLoc t ≠ wordLoc w ∧ t.astPlausible = true

instance (w : WordM) : DecidablePred (isCand w) := fun t => by
  unfold isCand
  exact inferInstance

/- Fixture exhibiting the actual forward window: a word of length 2 on line
1, and a matching identifier on line 6, column 1 — five lines forward,
while 2^len = 4. -/
def wordEx : WordM := ⟨1, 5, "ab", false, false⟩

def tokEx : NToken := ⟨6, 1, true, "ab", true⟩

/-- Counterexample to claim C7 as stated: the claimed forward window is 2^len
lines, but LocMax is the start of line WordLine + 1 + 2^len, so a matching
token five lines forward of a length-2 word (2^2 = 4) is still accepted and
returned. -/
theorem findNearbyIdentifier_beyond_claimed_window :
    findNearbyIdentifier wordEx [tokEx] = some tokEx ∧
    wordEx.line + 2 ^ wordEx.text.length < tokEx.line := by
  exact ⟨rfl, by decide⟩

end NearbyModel

namespace NearbyModel

theorem consider_out (w : WordM) (st : Nat × Option NToken) (t : NToken)
    (h : locLt (tokLoc t) (lineMin w, 1) ∨ locLt (lineMax w, 1) (tokLoc t)) :
    consider w st t = (st, true) := by
  unfold consider
  rw [if_pos h]

theorem consider_nomatch (w : WordM) (st : Nat × Option NToken) (t : NToken)
    (hb : ¬ (locLt (tokLoc t) (lineMin w, 1) ∨ locLt (lineMax w, 1) (tokLoc t)))
    (h : ¬ (t.isIdent = true ∧ t.text = w.text)) :
    consider w st t = (st, false) := by
  unfold consider
  rw [if_neg hb, if_pos h]

theorem consider_same (w : WordM) (st : Nat × Option NToken) (t : NToken)
    (hb : ¬ (locLt (tokLoc t) (lineMin w, 1) ∨ locLt (lineMax w, 1) (tokLoc t)))
    (hm : t.isIdent = true ∧ t.text = w.text) (hs : tokLoc t = wordLoc w) :
    consider w st t = (st, false) := by
  unfold consider
  rw [if_neg hb, if_neg (by simpa using hm), if_pos hs]

theorem consider_costbreak (w : WordM) (st : Nat × Option NToken) (t : NToken)
    (hb : ¬ (locLt (tokLoc t) (lineMin w, 1) ∨ locLt (lineMax w, 1) (tokLoc t)))
    (hm : t.isIdent = true ∧ t.text = w.text) (hs : tokLoc t ≠ wordLoc w)
    (hc : st.1 ≤ cost w.line t.line) :
    consider w st t = (st, true) := by
  unfold consider
  rw [if_neg hb, if_neg (by simpa using hm), if_neg hs]
  simp only [if_pos hc]

theorem consider_implaus (w : WordM) (st : Nat × Option NToken) (t : NToken)
    (hb : ¬ (locLt (tokLoc t) (lineMin w, 1) ∨ locLt (lineMax w, 1) (tokLoc t)))
    (hm : t.isIdent = true ∧ t.text = w.text) (hs : tokLoc t ≠ wordLoc w)
    (hc : ¬ st.1 ≤ cost w.line t.line) (hp : ¬ t.astPlausible = true) :
    consider w st t = (st, false) := by
  unfold consider
  rw [if_neg hb, if_neg (by simpa using hm), if_neg hs]
  simp only [if_neg hc, if_pos hp]

theorem consider_accept (w : WordM) (st : Nat × Option NToken) (t : NToken)
    (hb : ¬ (locLt (tokLoc t) (lineMin w, 1) ∨ locLt (lineMax w, 1) (tokLoc t)))
    (hm : t.isIdent = true ∧ t.text = w.text) (hs : tokLoc t ≠ wordLoc w)
    (hc : ¬ st.1 ≤ cost w.line t.line) (hp : t.astPlausible = true) :
    consider w st t = ((cost w.line t.line, some t), false) := by
  unfold consider
  rw [if_neg hb, if_neg (by simpa using hm), if_neg hs]
  simp only [if_neg hc]
  simp [hp]

theorem runLoop_cons (w : WordM) (t : NToken) (ts : List NToken)
    (st : Nat × Option NToken) :
    runLoop w (t :: ts) st =
      if (consider w st t).2 then (consider w st t).1
      else runLoop w ts (consider w st t).1 := rfl

/- If no candidate in the list improves on the incoming best cost, the loop
leaves its state unchanged (breaks return the state as is; matching but
implausible tokens never update it). -/
theorem runLoop_no_update (w : WordM) (L : List NToken)
    (st : Nat × Option NToken)
    (h : ∀ t ∈ L, isCand w t → st.1 ≤ cost w.line t.line) :
    runLoop w L st = st := by
  induction L with
  | nil => rfl
  | cons t ts ih =>
    have hrest : ∀ u ∈ ts, isCand w u → st.1 ≤ cost w.line u.line :=
      fun u hu => h u (by simp [hu])
    rw [runLoop_cons]
    by_cases hb : locLt (tokLoc t) (lineMin w, 1) ∨ locLt (lineMax w, 1) (tokLoc t)
    · rw [consider_out w st t hb]
      simp
    · by_cases hm : t.isIdent = true ∧ t.text = w.text
      · by_cases hs : tokLoc t = wordLoc w
        · rw [consider_same w st t hb hm hs]
          exact ih hrest
        · by_cases hc : st.1 ≤ cost w.line t.line
          · rw [consider_costbreak w st t hb hm hs hc]
            simp
          · by_cases hp : t.astPlausible = true
            · have hcand : isCand w t :=
                ⟨⟨fun h1 => hb (Or.inl h1), fun h2 => hb (Or.inr h2)⟩,
                  hm.1, hm.2, hs, hp⟩
              exact absurd (h t (by simp) hcand) hc
            · rw [consider_implaus w st t hb hm hs hc hp]
              exact ih hrest
      · rw [consider_nomatch w st t hb hm]
        exact ih hrest

/- Tokens before the first candidate can be skipped: they are in bounds, and
any matching one among them costs strictly less than the incoming best, so
no break fires and the state is unchanged. -/
theorem runLoop_skip_front (w : WordM) (pre rest : List NToken)
    (st : Nat × Option NToken)
    (hnc : ∀ u ∈ pre, ¬ isCand w u)
    (hib : ∀ u ∈ pre, inBounds w u)
    (hnb : ∀ u ∈ pre, u.isIdent = true ∧ u.text = w.text →
      tokLoc u ≠ wordLoc w → cost w.line u.line < st.1) :
    runLoop w (pre ++ rest) st = runLoop w rest st := by
  induction pre with
  | nil => rfl
  | cons u pre' ih =>
    have hu := hib u (by simp)
    have hb : ¬ (locLt (tokLoc u) (lineMin w, 1) ∨
        locLt (lineMax w, 1) (tokLoc u)) := by
      intro hcon
      rcases hcon with hcon | hcon
      · exact hu.1 hcon
      · exact hu.2 hcon
    rw [List.cons_append, runLoop_cons]
    by_cases hm : u.isIdent = true ∧ u.text = w.text
    · by_cases hs : tokLoc u = wordLoc w
      · rw [consider_same w st u hb hm hs]
        exact ih (fun v hv => hnc v (by simp [hv]))
          (fun v hv => hib v (by simp [hv]))
          (fun v hv => hnb v (by simp [hv]))
      · have hlt : cost w.line u.line < st.1 := hnb u (by simp) hm hs
        by_cases hp : u.astPlausible = true
        · exact absurd ⟨hu, hm.1, hm.2, hs, hp⟩ (hnc u (by simp))
        · rw [consider_implaus w st u hb hm hs (by omega) hp]
          exact ih (fun v hv => hnc v (by simp [hv]))
            (fun v hv => hib v (by simp [hv]))
            (fun v hv => hnb v (by simp [hv]))
    · rw [consider_nomatch w st u hb hm]
      exact ih (fun v hv => hnc v (by simp [hv]))
        (fun v hv => hib v (by simp [hv]))
        (fun v hv => hnb v (by simp [hv]))

/- A candidate strictly better than the incoming best is accepted and the
loop continues with it. -/
theorem runLoop_accept_head (w : WordM) (t : NToken) (ts : List NToken)
    (st : Nat × Option NToken) (hc : isCand w t)
    (hlt : cost w.line t.line < st.1) :
    runLoop w (t :: ts) st = runLoop w ts (cost w.line t.line, some t) := by
  obtain ⟨hibd, h1, h2, h3, h4⟩ := hc
  have hb : ¬ (locLt (tokLoc t) (lineMin w, 1) ∨
      locLt (lineMax w, 1) (tokLoc t)) := by
    intro hcon
    rcases hcon with hcon | hcon
    · exact hibd.1 hcon
    · exact hibd.2 hcon
  rw [runLoop_cons, consider_accept w st t hb ⟨h1, h2⟩ h3 (by omega) h4]
  simp

/- Decomposition of a list at the head of its filtered sublist. -/
theorem head?_filter_decomp {α : Type} (p : α → Prop) [DecidablePred p]
    (l : List α) (f : α)
    (h : (l.filter (fun a => decide (p a))).head? = some f) :
    ∃ pre post, l = pre ++ f :: post ∧ p f ∧ ∀ u ∈ pre, ¬ p u := by
  induction l with
  | nil => cases h
  | cons a l ih =>
    by_cases hp : p a
    · rw [List.filter_cons_of_pos (by simpa using hp)] at h
      simp only [List.head?_cons, Option.some.injEq] at h
      exact ⟨[], l, by simp [h], by rw [← h]; exact hp, by simp⟩
    · rw [List.filter_cons_of_neg (by simpa using hp)] at h
      obtain ⟨pre, post, heq, hf, hpre⟩ := ih h
      refine ⟨a :: pre, post, by rw [List.cons_append, heq], hf, ?_⟩
      intro u hu
      rcases List.mem_cons.mp hu with rfl | hu'
      · exact hp
      · exact hpre u hu'

end NearbyModel

namespace NearbyModel

theorem no_cand_of_head_none (w : WordM) (L : List NToken)
    (hh : (L.filter (fun t => decide (isCand w t))).head? = none) :
    ∀ t ∈ L, ¬ isCand w t := by
  intro t ht hc
  have hempty : L.filter (fun t => decide (isCand w t)) = [] :=
    List.head?_eq_none_iff.mp hh
  have hmem : t ∈ L.filter (fun t => decide (isCand w t)) :=
    List.mem_filter.mpr ⟨ht, by simpa using hc⟩
  rw [hempty] at hmem
  cases hmem

theorem head_filter_min (w : WordM) (L : List NToken) (f : NToken)
    (hmono : List.Pairwise
      (fun a b => cost w.line a.line ≤ cost w.line b.line) L)
    (hh : (L.filter (fun t => decide (isCand w t))).head? = some f) :
    isCand w f ∧ f ∈ L ∧
      ∀ u ∈ L, isCand w u → cost w.line f.line ≤ cost w.line u.line := by
  obtain ⟨pre, post, heq, hf, hpre⟩ := head?_filter_decomp (isCand w) L f hh
  subst heq
  rw [List.pairwise_append] at hmono
  refine ⟨hf, by simp, ?_⟩
  intro u hu hcand
  rcases List.mem_append.mp hu with hu' | hu'
  · exact absurd hcand (hpre u hu')
  · rcases List.mem_cons.mp hu' with rfl | hu''
    · exact le_refl _
    · exact List.rel_of_pairwise_cons hmono.2.1 hu''

/- Full characterization of one search loop over a traversal list whose
costs are non-decreasing and whose out-of-window property is monotone: the
loop keeps the incoming best unless the first candidate of the list beats
it. -/
theorem runLoop_char (w : WordM) (L : List NToken) (st : Nat × Option NToken)
    (hmono : List.Pairwise
      (fun a b => cost w.line a.line ≤ cost w.line b.line) L)
    (hbound : List.Pairwise
      (fun a b => ¬ inBounds w a → ¬ inBounds w b) L) :
    runLoop w L st =
      match (L.filter (fun t => decide (isCand w t))).head? with
      | none => st
      | some f =>
        if cost w.line f.line < st.1 then (cost w.line f.line, some f)
        else st := by
  rcases hh : (L.filter (fun t => decide (isCand w t))).head? with _ | f
  · exact runLoop_no_update w L st
      (fun t ht hc => absurd hc (no_cand_of_head_none w L hh t ht))
  · obtain ⟨pre, post, heq, hf, hpre⟩ := head?_filter_decomp (isCand w) L f hh
    subst heq
    rw [List.pairwise_append] at hmono hbound
    obtain ⟨hm1, hm2, hm3⟩ := hmono
    obtain ⟨hb1, hb2, hb3⟩ := hbound
    have hfin : inBounds w f := hf.1
    have hib : ∀ u ∈ pre, inBounds w u := by
      intro u hu
      by_contra hcon
      exact (hb3 u hu f (by simp)) hcon hfin
    by_cases hlt : cost w.line f.line < st.1
    · rw [runLoop_skip_front w pre (f :: post) st hpre hib
        (fun u hu humatch huneq => by
          have h1 : cost w.line u.line ≤ cost w.line f.line :=
            hm3 u hu f (by simp)
          omega)]
      rw [runLoop_accept_head w f post st hf hlt]
      rw [runLoop_no_update w post (cost w.line f.line, some f)
        (fun t ht hc => List.rel_of_pairwise_cons hm2 ht)]
      simp [hlt]
    · have hres : runLoop w (pre ++ f :: post) st = st := by
        apply runLoop_no_update
        intro t ht hc
        rcases List.mem_append.mp ht with hpre' | hcons
        · exact absurd hc (hpre t hpre')
        · rcases List.mem_cons.mp hcons with rfl | hpost
          · omega
          · have h1 : cost w.line f.line ≤ cost w.line t.line :=
              List.rel_of_pairwise_cons hm2 hpost
            omega
      rw [hres]
      simp [hlt]

end NearbyModel

namespace NearbyModel

theorem mem_fwdToks (w : WordM) (toks : List NToken)
    (hsorted : List.Pairwise (fun a b => locLt (tokLoc a) (tokLoc b)) toks) :
    ∀ t ∈ fwdToks w toks, ¬ locLt (tokLoc t) (wordLoc w) := by
  induction toks with
  | nil =>
    intro t ht
    cases ht
  | cons a l ih =>
    intro t ht
    unfold fwdToks at ht
    by_cases hp : locLt (tokLoc a) (wordLoc w)
    · rw [List.dropWhile_cons_of_pos (by simpa using hp)] at ht
      exact ih hsorted.of_cons t ht
    · rw [List.dropWhile_cons_of_neg (by simpa using hp)] at ht
      rcases List.mem_cons.mp ht with rfl | ht'
      · exact hp
      · have hat : locLt (tokLoc a) (tokLoc t) :=
          List.rel_of_pairwise_cons hsorted ht'
        unfold locLt tokLoc wordLoc at *
        omega

theorem mem_bwdToks (w : WordM) (toks : List NToken) :
    ∀ t ∈ bwdToks w toks, locLt (tokLoc t) (wordLoc w) := by
  intro t ht
  unfold bwdToks at ht
  rw [List.mem_reverse] at ht
  have := List.mem_takeWhile_imp ht
  simpa using this

theorem fwdToks_subset (w : WordM) (toks : List NToken) :
    ∀ t ∈ fwdToks w toks, t ∈ toks :=
  fun _ ht => (List.dropWhile_sublist _).subset ht

theorem bwdToks_subset (w : WordM) (toks : List NToken) :
    ∀ t ∈ bwdToks w toks, t ∈ toks := by
  intro t ht
  unfold bwdToks at ht
  rw [List.mem_reverse] at ht
  exact (List.takeWhile_sublist _).subset ht

theorem mem_fwd_or_bwd (w : WordM) (toks : List NToken) (u : NToken)
    (hu : u ∈ toks) : u ∈ fwdToks w toks ∨ u ∈ bwdToks w toks := by
  unfold fwdToks bwdToks
  rw [List.mem_reverse]
  rw [← List.takeWhile_append_dropWhile
    (p := fun t => decide (locLt (tokLoc t) (wordLoc w))) (l := toks)] at hu
  rcases List.mem_append.mp hu with h | h
  · exact Or.inr h
  · exact Or.inl h

theorem one_le_half_maxDistance (w : WordM) (hlen : 1 ≤ w.text.length) :
    1 ≤ maxDistance w / 2 := by
  unfold maxDistance
  have h1 : 1 ≤ min w.text.length 31 := le_min hlen (by omega)
  have h2 : 2 ^ 1 ≤ 2 ^ min w.text.length 31 :=
    Nat.pow_le_pow_right (by omega) h1
  omega

theorem fwd_mono (w : WordM) (toks : List NToken)
    (hsorted : List.Pairwise (fun a b => locLt (tokLoc a) (tokLoc b)) toks) :
    List.Pairwise (fun a b => cost w.line a.line ≤ cost w.line b.line)
      (fwdToks w toks) := by
  have hp : List.Pairwise (fun a b => locLt (tokLoc a) (tokLoc b))
      (fwdToks w toks) :=
    List.Pairwise.sublist (List.dropWhile_sublist _) hsorted
  have hmem := mem_fwdToks w toks hsorted
  refine hp.imp_of_mem ?_
  intro a b ha hb hab
  have ha' := hmem a ha
  have hb' := hmem b hb
  unfold locLt tokLoc wordLoc at *
  unfold cost
  split_ifs <;> omega

theorem fwd_bound (w : WordM) (toks : List NToken)
    (hsorted : List.Pairwise (fun a b => locLt (tokLoc a) (tokLoc b)) toks)
    (hlen : 1 ≤ w.text.length) (hline : 1 ≤ w.line) (hcol : 1 ≤ w.col) :
    List.Pairwise (fun a b => ¬ inBounds w a → ¬ inBounds w b)
      (fwdToks w toks) := by
  have hp : List.Pairwise (fun a b => locLt (tokLoc a) (tokLoc b))
      (fwdToks w toks) :=
    List.Pairwise.sublist (List.dropWhile_sublist _) hsorted
  have hmem := mem_fwdToks w toks hsorted
  have hhalf : 1 ≤ maxDistance w / 2 := one_le_half_maxDistance w hlen
  have hminle : lineMin w ≤ w.line := by
    unfold lineMin
    split_ifs <;> omega
  refine hp.imp_of_mem ?_
  intro a b ha hb hab hna hinb
  have ha' := hmem a ha
  have hb' := hmem b hb
  unfold inBounds locLt tokLoc wordLoc at *
  omega

theorem bwd_mono (w : WordM) (toks : List NToken)
    (hsorted : List.Pairwise (fun a b => locLt (tokLoc a) (tokLoc b)) toks) :
    List.Pairwise (fun a b => cost w.line a.line ≤ cost w.line b.line)
      (bwdToks w toks) := by
  have hp : List.Pairwise (fun a b => locLt (tokLoc b) (tokLoc a))
      (bwdToks w toks) := by
    unfold bwdToks
    rw [List.pairwise_reverse]
    exact List.Pairwise.sublist (List.takeWhile_sublist _) hsorted
  have hmem := mem_bwdToks w toks
  refine hp.imp_of_mem ?_
  intro a b ha hb hab
  have ha' := hmem a ha
  have hb' := hmem b hb
  unfold locLt tokLoc wordLoc at *
  unfold cost
  split_ifs <;> omega

theorem bwd_bound (w : WordM) (toks : List NToken)
    (hsorted : List.Pairwise (fun a b => locLt (tokLoc a) (tokLoc b)) toks) :
    List.Pairwise (fun a b => ¬ inBounds w a → ¬ inBounds w b)
      (bwdToks w toks) := by
  have hp : List.Pairwise (fun a b => locLt (tokLoc b) (tokLoc a))
      (bwdToks w toks) := by
    unfold bwdToks
    rw [List.pairwise_reverse]
    exact List.Pairwise.sublist (List.takeWhile_sublist _) hsorted
  have hmem := mem_bwdToks w toks
  have hmax : w.line < lineMax w := by
    unfold lineMax
    omega
  refine hp.imp_of_mem ?_
  intro a b ha hb hab hna hinb
  have ha' := hmem a ha
  have hb' := hmem b hb
  unfold inBounds locLt tokLoc wordLoc at *
  omega

end NearbyModel

namespace NearbyModel

/-- Claim C7 (amended: the window is exactly the one cut out by LocMin =
start of line max(1, wordLine+1-2^(len-1)) and LocMax = start of line
wordLine+1+2^len — so up to 2^len+1 lines forward, the last line only at
column 1, and at most 2^(len-1)-1 lines backward — rather than "2^len
forward / 2^(len-1) backward"): for a word that is not a resolved token, on
a sorted spelled-token stream, findNearbyIdentifier returns the first
in-window plausible exact-text identifier candidate of the forward
traversal unless a backward candidate is strictly cheaper (cost = forward
line distance, or twice the backward line distance; ties favour the forward
direction), and the returned token has minimal cost among all candidates. -/
theorem findNearbyIdentifier_char (w : WordM) (toks : List NToken)
    (hflag1 : w.hasExpandedToken = false) (hflag2 : w.inStringLiteral = false)
    (hsorted : List.Pairwise (fun a b => locLt (tokLoc a) (tokLoc b)) toks)
    (hlen : 1 ≤ w.text.length) (hline : 1 ≤ w.line) (hcol : 1 ≤ w.col)
    (hcost : ∀ t ∈ toks, cost w.line t.line < uintMax) :
    (findNearbyIdentifier w toks =
      match ((fwdToks w toks).filter (fun t => decide (isCand w t))).head?,
        ((bwdToks w toks).filter (fun t => decide (isCand w t))).head? with
      | none, none => none
      | some f, none => some f
      | none, some b => some b
      | some f, some b =>
        if cost w.line b.line < cost w.line f.line then some b else some f) ∧
    (∀ t, findNearbyIdentifier w toks = some t →
      isCand w t ∧ ∀ u ∈ toks, isCand w u →
        cost w.line t.line ≤ cost w.line u.line) := by
  have hfm := fwd_mono w toks hsorted
  have hfb := fwd_bound w toks hsorted hlen hline hcol
  have hbm := bwd_mono w toks hsorted
  have hbb := bwd_bound w toks hsorted
  have hmain : findNearbyIdentifier w toks =
      (runLoop w (bwdToks w toks)
        (runLoop w (fwdToks w toks) (uintMax, none))).2 := by
    unfold findNearbyIdentifier
    rw [hflag1, hflag2]
    rfl
  have hrun1 := runLoop_char w (fwdToks w toks) (uintMax, none) hfm hfb
  rcases hfh : ((fwdToks w toks).filter (fun t => decide (isCand w t))).head?
    with _ | f
  · have hst1 : runLoop w (fwdToks w toks) (uintMax, none) = (uintMax, none) := by
      rw [hrun1, hfh]
    have hrun2 := runLoop_char w (bwdToks w toks) (uintMax, none) hbm hbb
    have hnofwd := no_cand_of_head_none w (fwdToks w toks) hfh
    rcases hbh : ((bwdToks w toks).filter (fun t => decide (isCand w t))).head?
      with _ | b
    · constructor
      · rw [hmain, hst1, hrun2, hbh]
      · intro t ht
        rw [hmain, hst1, hrun2, hbh] at ht
        cases ht
    · obtain ⟨hbcand, hbmem, hbmin⟩ := head_filter_min w (bwdToks w toks) b hbm hbh
      have hbc : cost w.line b.line < uintMax :=
        hcost b (bwdToks_subset w toks b hbmem)
      have hst2 : runLoop w (bwdToks w toks) (uintMax, none) =
          (cost w.line b.line, some b) := by
        rw [hrun2, hbh]
        simp [hbc]
      constructor
      · rw [hmain, hst1, hst2]
      · intro t ht
        rw [hmain, hst1, hst2] at ht
        simp only [Option.some.injEq] at ht
        subst ht
        refine ⟨hbcand, ?_⟩
        intro u hu hcand
        rcases mem_fwd_or_bwd w toks u hu with hf' | hb'
        · exact absurd hcand (hnofwd u hf')
        · exact hbmin u hb' hcand
  · obtain ⟨hfcand, hfmem, hfmin⟩ := head_filter_min w (fwdToks w toks) f hfm hfh
    have hfc : cost w.line f.line < uintMax :=
      hcost f (fwdToks_subset w toks f hfmem)
    have hst1 : runLoop w (fwdToks w toks) (uintMax, none) =
        (cost w.line f.line, some f) := by
      rw [hrun1, hfh]
      simp [hfc]
    have hrun2 := runLoop_char w (bwdToks w toks) (cost w.line f.line, some f)
      hbm hbb
    rcases hbh : ((bwdToks w toks).filter (fun t => decide (isCand w t))).head?
      with _ | b
    · have hnobwd := no_cand_of_head_none w (bwdToks w toks) hbh
      have hst2 : runLoop w (bwdToks w toks) (cost w.line f.line, some f) =
          (cost w.line f.line, some f) := by
        rw [hrun2, hbh]
      constructor
      · rw [hmain, hst1, hst2]
      · intro t ht
        rw [hmain, hst1, hst2] at ht
        simp only [Option.some.injEq] at ht
        subst ht
        refine ⟨hfcand, ?_⟩
        intro u hu hcand
        rcases mem_fwd_or_bwd w toks u hu with hf' | hb'
        · exact hfmin u hf' hcand
        · exact absurd hcand (hnobwd u hb')
    · obtain ⟨hbcand, hbmem, hbmin⟩ := head_filter_min w (bwdToks w toks) b hbm hbh
      by_cases hbf : cost w.line b.line < cost w.line f.line
      · have hst2 : runLoop w (bwdToks w toks) (cost w.line f.line, some f) =
            (cost w.line b.line, some b) := by
          rw [hrun2, hbh]
          simp [hbf]
        constructor
        · rw [hmain, hst1, hst2]
          simp [hbf]
        · intro t ht
          rw [hmain, hst1, hst2] at ht
          simp only [Option.some.injEq] at ht
          subst ht
          refine ⟨hbcand, ?_⟩
          intro u hu hcand
          rcases mem_fwd_or_bwd w toks u hu with hf' | hb'
          · have := hfmin u hf' hcand
            omega
          · exact hbmin u hb' hcand
      · have hst2 : runLoop w (bwdToks w toks) (cost w.line f.line, some f) =
            (cost w.line f.line, some f) := by
          rw [hrun2, hbh]
          simp [hbf]
        constructor
        · rw [hmain, hst1, hst2]
          simp [hbf]
        · intro t ht
          rw [hmain, hst1, hst2] at ht
          simp only [Option.some.injEq] at ht
          subst ht
          refine ⟨hfcand, ?_⟩
          intro u hu hcand
          rcases mem_fwd_or_bwd w toks u hu with hf' | hb'
          · exact hfmin u hf' hcand
          · have := hbmin u hb' hcand
            omega

/- Witness fixture: a backward candidate two lines up (cost 2) and a forward
candidate one line down (cost 1). -/
def wWit : WordM := ⟨3, 5, "ab", false, false⟩

def tokB : NToken := ⟨2, 1, true, "ab", true⟩

def tokF : NToken := ⟨4, 1, true, "ab", true⟩

/-- Witness for the amended claim C7 at a concrete input. -/
theorem findNearbyIdentifier_char_witness :
    (findNearbyIdentifier wWit [tokB, tokF] =
      match ((fwdToks wWit [tokB, tokF]).filter
          (fun t => decide (isCand wWit t))).head?,
        ((bwdToks wWit [tokB, tokF]).filter
          (fun t => decide (isCand wWit t))).head? with
      | none, none => none
      | some f, none => some f
      | none, some b => some b
      | some f, some b =>
        if cost wWit.line b.line < cost wWit.line f.line then some b
        else some f) ∧
    (∀ t, findNearbyIdentifier wWit [tokB, tokF] = some t →
      isCand wWit t ∧ ∀ u ∈ [tokB, tokF], isCand wWit u →
        cost wWit.line t.line ≤ cost wWit.line u.line) :=
  findNearbyIdentifier_char wWit [tokB, tokF] rfl rfl (by decide) (by decide)
    (by decide) (by decide) (by decide)

end NearbyModel

namespace HierModel

/- A base specifier as consulted by typeParents (XRefs.cpp): the record
declaration if the base type is a RecordType, otherwise the primary
template's templated record for a dependent TemplateSpecializationType
(either lookup may fail). -/
structure BaseSpec where
  recordDecl : Option Nat
  templatePattern : Option Nat
deriving DecidableEq, Repr

/- The CXXRecordDecl fields consulted by typeParents and fillSuperTypes:
whether this is an invalid ClassTemplateSpecializationDecl (and then the
primary template's templated record), whether a definition is visible,
whether the record is a class-template pattern (getDescribedTemplate), and
its base specifiers. -/
structure RecDecl where
  invalidSpecPattern : Option Nat
  hasDefinition : Bool
  describedTemplate : Bool
  bases : List BaseSpec
deriving DecidableEq, Repr

def parentOfBase (b : BaseSpec) : Option Nat :=
  match b.recordDecl with
  | some d => some d
  | none => b.templatePattern

/- typeParents (XRefs.cpp): for an invalid specialization fall back to the
template pattern; without a definition there are no bases; otherwise each
base contributes its record decl, or for a dependent base the primary
template's templated record. -/
def typeParents (decls : Nat → RecDecl) (d : Nat) : List Nat :=
  let d' := match (decls d).invalidSpecPattern with
    | some p => p
    | none => d
  if ¬ (decls d').hasDefinition = true then []
  else (decls d').bases.filterMap parentOfBase

/- The type-hierarchy item tree produced by fillSuperTypes: a record and its
recursively filled parents (the guard-hit case keeps the freshly emplaced
empty parents list). -/
inductive HTree where
  | node (decl : Nat) (parents : List HTree)
deriving Repr

/- fillSuperTypes (XRefs.cpp) with explicit fuel: `none` stands for fuel
exhaustion (the C++ recursion not terminating within the given depth).  The
RecursionProtectionSet is threaded functionally: the C++ code inserts the
pattern before the parents loop and erases it afterwards, so each child
call sees the inserted set and siblings see the caller's set — which is
exactly passing `insert d rp` down.  A pattern already in the set returns
its item immediately with the empty parents list emplaced at entry.
declToTypeHierarchyItem is modelled as always succeeding (conversion
failures only prune recursion). -/
mutual

def fillSuperTypes (decls : Nat → RecDecl) :
    Nat → Nat → Finset Nat → Option HTree
  | 0, _, _ => none
  | fuel + 1, d, rp =>
    if (decls d).describedTemplate = true ∧ d ∈ rp then some (.node d [])
    else
      match fillAll decls fuel (typeParents decls d)
          (if (decls d).describedTemplate = true then insert d rp else rp) with
      | some ps => some (.node d ps)
      | none => none

def fillAll (decls : Nat → RecDecl) :
    Nat → List Nat → Finset Nat → Option (List HTree)
  | _, [], _ => some []
  | fuel, p :: ps, rp =>
    match fillSuperTypes decls fuel p rp with
    | none => none
    | some t =>
      match fillAll decls fuel ps rp with
      | none => none
      | some ts => some (t :: ts)

end

theorem fillAll_isSome (decls : Nat → RecDecl) (fuel : Nat) (l : List Nat)
    (rp : Finset Nat)
    (h : ∀ p ∈ l, (fillSuperTypes decls fuel p rp).isSome) :
    (fillAll decls fuel l rp).isSome := by
  induction l with
  | nil => simp [fillAll]
  | cons p ps ih =>
    have h1 := h p (by simp)
    have h2 := ih (fun q hq => h q (by simp [hq]))
    rcases hp : fillSuperTypes decls fuel p rp with _ | t
    · rw [hp] at h1
      cases h1
    · rcases hq : fillAll decls fuel ps rp with _ | ts
      · rw [hq] at h2
        cases h2
      · simp [fillAll, hp, hq]

end HierModel

namespace HierModel

/- Fuel sufficiency for fillSuperTypes, under the Clang AST invariants: every
parent stays in the finite universe U of records, and a parent that is not a
template pattern is a complete, earlier-defined class (strictly smaller
rank μ, bounded by B).  Template-pattern parents may point anywhere — the
RecursionProtectionSet handles those.  The budget spends B + 2 fuel per
not-yet-visited pattern plus the remaining non-pattern descent. -/
theorem fillSuperTypes_fuel (decls : Nat → RecDecl) (U : Finset Nat)
    (μ : Nat → Nat) (B : Nat)
    (HU : ∀ d ∈ U, ∀ p ∈ typeParents decls d, p ∈ U)
    (Hdec : ∀ d ∈ U, ∀ p ∈ typeParents decls d,
      (decls p).describedTemplate = false → μ p < μ d)
    (HB : ∀ d ∈ U, μ d ≤ B) :
    ∀ fuel d rp, d ∈ U →
      ((U.filter (fun x => (decls x).describedTemplate = true)) \ rp).card
          * (B + 2) +
        (if (decls d).describedTemplate = true then 2 else μ d + 3) ≤ fuel →
      (fillSuperTypes decls fuel d rp).isSome := by
  intro fuel
  induction fuel using Nat.strong_induction_on with
  | _ fuel IH =>
    intro d rp hd hfuel
    have hfuel2 : 2 ≤ fuel := by
      by_cases hp : (decls d).describedTemplate = true
      · rw [if_pos hp] at hfuel
        omega
      · rw [if_neg hp] at hfuel
        omega
    obtain ⟨fuel', rfl⟩ : ∃ f', fuel = f' + 1 := ⟨fuel - 1, by omega⟩
    by_cases hguard : (decls d).describedTemplate = true ∧ d ∈ rp
    · simp [fillSuperTypes, hguard]
    · have hall : (fillAll decls fuel' (typeParents decls d)
          (if (decls d).describedTemplate = true then insert d rp
           else rp)).isSome := by
        apply fillAll_isSome
        intro p hp
        have hpU : p ∈ U := HU d hd p hp
        apply IH fuel' (by omega) p _ hpU
        by_cases hdp : (decls d).describedTemplate = true
        · have hdnrp : d ∉ rp := fun hmem => hguard ⟨hdp, hmem⟩
          rw [if_pos hdp]
          rw [if_pos hdp] at hfuel
          have hdmem : d ∈
              (U.filter (fun x => (decls x).describedTemplate = true)) \ rp :=
            Finset.mem_sdiff.mpr ⟨Finset.mem_filter.mpr ⟨hd, hdp⟩, hdnrp⟩
          have hpos : 1 ≤
              ((U.filter (fun x => (decls x).describedTemplate = true)) \
                rp).card :=
            Finset.card_pos.mpr ⟨d, hdmem⟩
          have hcard :
              ((U.filter (fun x => (decls x).describedTemplate = true)) \
                insert d rp).card + 1 =
              ((U.filter (fun x => (decls x).describedTemplate = true)) \
                rp).card := by
            rw [Finset.sdiff_insert, Finset.card_erase_of_mem hdmem]
            omega
          have hmul :
              ((U.filter (fun x => (decls x).describedTemplate = true)) \
                rp).card * (B + 2) =
              ((U.filter (fun x => (decls x).describedTemplate = true)) \
                insert d rp).card * (B + 2) + (B + 2) := by
            rw [← hcard, Nat.succ_mul]
          rw [hmul] at hfuel
          by_cases hpp : (decls p).describedTemplate = true
          · rw [if_pos hpp]
            omega
          · rw [if_neg hpp]
            have h1 : μ p < μ d :=
              Hdec d hd p hp (by simpa using hpp)
            have h2 : μ d ≤ B := HB d hd
            omega
        · rw [if_neg hdp]
          rw [if_neg hdp] at hfuel
          by_cases hpp : (decls p).describedTemplate = true
          · rw [if_pos hpp]
            omega
          · rw [if_neg hpp]
            have h1 : μ p < μ d :=
              Hdec d hd p hp (by simpa using hpp)
            omega
      rcases hres : fillAll decls fuel' (typeParents decls d)
          (if (decls d).describedTemplate = true then insert d rp else rp)
        with _ | ps
      · rw [hres] at hall
        cases hall
      · simp [fillSuperTypes, hguard, hres]

/-- Claim C8: fillSuperTypes terminates on every class — under the Clang AST
invariants that records live in a finite universe closed under typeParents
and that non-pattern parents are complete classes of strictly smaller rank —
with fuel (number of template patterns)·(B+2) + B + 3 never exhausted
(first conjunct); and a template pattern already present on the current
parent chain is not expanded again: it immediately yields its node with an
empty parents list, so the A<T> : A<A<T>>-shaped recursion is cut after one
round and contributes no further nodes on that chain (second conjunct). -/
theorem fillSuperTypes_terminates (decls : Nat → RecDecl) (U : Finset Nat)
    (μ : Nat → Nat) (B : Nat)
    (HU : ∀ d ∈ U, ∀ p ∈ typeParents decls d, p ∈ U)
    (Hdec : ∀ d ∈ U, ∀ p ∈ typeParents decls d,
      (decls p).describedTemplate = false → μ p < μ d)
    (HB : ∀ d ∈ U, μ d ≤ B)
    (d : Nat) (hd : d ∈ U) (fuel : Nat)
    (hfuel : (U.filter (fun x => (decls x).describedTemplate = true)).card
      * (B + 2) + B + 3 ≤ fuel) :
    (fillSuperTypes decls fuel d ∅).isSome ∧
    (∀ fuel' rp, 1 ≤ fuel' → (decls d).describedTemplate = true → d ∈ rp →
      fillSuperTypes decls fuel' d rp = some (.node d [])) := by
  constructor
  · apply fillSuperTypes_fuel decls U μ B HU Hdec HB fuel d ∅ hd
    rw [Finset.sdiff_empty]
    by_cases hdp : (decls d).describedTemplate = true
    · rw [if_pos hdp]
      omega
    · rw [if_neg hdp]
      have hμ : μ d ≤ B := HB d hd
      omega
  · intro fuel' rp h1 hpat hmem
    obtain ⟨f'', rfl⟩ : ∃ f, fuel' = f + 1 := ⟨fuel' - 1, by omega⟩
    simp [fillSuperTypes, hpat, hmem]

/- The synthetic self-referential fixture: one class-template pattern whose
only base is the dependent specialization of itself (class A<T> with base
A<A<T>>, canonicalized by typeParents back to the pattern A). -/
def fixDecls : Nat → RecDecl := fun _ =>
  { invalidSpecPattern := none, hasDefinition := true,
    describedTemplate := true, bases := [⟨none, some 0⟩] }

/-- Witness for claim C8 on the A<T> : A<A<T>> fixture: the recursion
terminates with the stated fuel, and the revisited pattern is not expanded
again. -/
theorem fillSuperTypes_terminates_witness :
    (fillSuperTypes fixDecls 5 0 ∅).isSome ∧
    (∀ fuel' rp, 1 ≤ fuel' → (fixDecls 0).describedTemplate = true →
      0 ∈ rp → fillSuperTypes fixDecls fuel' 0 rp = some (.node 0 [])) :=
  fillSuperTypes_terminates fixDecls {0} (fun _ => 0) 0
    (by decide) (by decide) (by decide) 0 (by decide) 5 (by decide)

end HierModel
